import Mathlib

/-!
Verification of the AOTS scan bot's core logic.

The development embeds the program's pure core:

* `chunk_symbols_into_fields` — the greedy chunk packer (`main.py`,
  `chunk_symbols_into_fields`, lines 74–97).  The module constants
  `MAX_FIELD_CHAR` and `MAX_EMBED_FIELDS` appear as the parameters `MFC`
  and `MEF`; the loop is `chunk_loop`, and `", ".join` is `joinComma`.
* `rollingMeanList`, `get_indicators`, `is_aots` — the indicator engine
  and classifier (lines 44–71), with closing prices modelled as rationals.
  The rolling mean mirrors pandas `rolling(w, min_periods=1).mean()`:
  position `i` averages the window of the last `w` elements ending at `i`,
  clamped at the start of the series, and `df.iloc[-1]` is `getLast?`.
* `scan_tier2` — the accumulation loop of `on_ready` (lines 111–117).
* `module_config_guard` — the startup configuration check (lines 17–24)
  over an environment record, with Python truthiness of `os.getenv`.
-/

/-! ## Chunk packer -/

/-- Model of `", ".join(curr_list)`. -/
def joinComma : List String → String
  | [] => ""
  | [s] => s
  | s :: t :: rest => s ++ ", " ++ joinComma (t :: rest)

/-- Rendered text of one chunk: `prefix + ", ".join(curr_list)`. -/
def renderChunk (pre : String) (l : List String) : String :=
  pre ++ joinComma l

/-- The token a symbol contributes to the running chunk length:
`(", " if curr_list else "") + sym`. -/
def tokenFor (curr_list : List String) (sym : String) : String :=
  (if curr_list.isEmpty then "" else ", ") ++ sym

/-- The `for sym in symbols` loop of `chunk_symbols_into_fields`, with the
state `(fields, curr_list, curr_len, processed_count)` passed explicitly.
The early return models the `break` once `len(fields) >= MAX_EMBED_FIELDS`. -/
def chunk_loop (MFC MEF : Nat) (pre : String) :
    List String → List String → List String → Nat → Nat →
      List String × List String × Nat
  | [], fields, curr_list, _, processed_count => (fields, curr_list, processed_count)
  | sym :: rest, fields, curr_list, curr_len, processed_count =>
    let token := tokenFor curr_list sym
    if curr_len + token.length ≤ MFC then
      chunk_loop MFC MEF pre rest fields (curr_list ++ [sym])
        (curr_len + token.length) (processed_count + 1)
    else
      let fields' := fields ++ [renderChunk pre curr_list]
      if MEF ≤ fields'.length then
        (fields', [sym], processed_count + 1)
      else
        chunk_loop MFC MEF pre rest fields' [sym]
          (pre.length + sym.length) (processed_count + 1)

/-- `chunk_symbols_into_fields(symbols, prefix)` from `main.py`, with the
module constants `MAX_FIELD_CHAR` / `MAX_EMBED_FIELDS` as the parameters
`MFC` / `MEF`.  After the loop: flush the current chunk if room remains,
then append the `"...and {remaining} more"` note — as its own chunk when
fewer than `MEF` chunks exist, otherwise concatenated onto the last chunk
with a newline (`fields[-1] += "\n" + note`). -/
def chunk_symbols_into_fields (MFC MEF : Nat) (symbols : List String) (pre : String) :
    List String :=
  let r := chunk_loop MFC MEF pre symbols [] [] pre.length 0
  let fields := r.1
  let curr_list := r.2.1
  let processed_count := r.2.2
  let fields2 :=
    if curr_list ≠ [] ∧ fields.length < MEF then fields ++ [renderChunk pre curr_list]
    else fields
  let remaining := symbols.length - processed_count
  if 0 < remaining then
    let note := "...and " ++ toString remaining ++ " more"
    if fields2.length < MEF then fields2 ++ [note]
    else fields2.dropLast ++ [fields2.getLastD ("") ++ "\n" ++ note]
  else fields2

/-- Production value of `MAX_FIELD_CHAR` in `main.py`. -/
def MAX_FIELD_CHAR : Nat := 1000

/-- Production value of `MAX_EMBED_FIELDS` in `main.py`. -/
def MAX_EMBED_FIELDS : Nat := 20

/-! ## Indicator engine and classifier -/

/-- Arithmetic mean of a list of rationals. -/
def listMean (l : List ℚ) : ℚ := l.sum / (l.length : ℚ)

/-- Rolling mean series with `min_periods=1` semantics, mirroring
`df['close'].rolling(w, min_periods=1).mean()`: the value at position `i`
averages the elements of the window of length at most `w` ending at `i`. -/
def rollingMeanList (w : Nat) (closes : List ℚ) : List ℚ :=
  (List.range closes.length).map (fun i => listMean ((closes.take (i + 1)).drop (i + 1 - w)))

/-- The fields of `df.iloc[-1]` that the classifier reads. -/
structure IndicatorSnapshot where
  MA20 : ℚ
  MA50 : ℚ
  MA100 : ℚ

/-- `get_indicators(symbol)`: fetch candles (all failure modes of the
`try`/`except` and the network call collapse into `fetch` returning
`none`), return `None` on an empty candle list, otherwise the last row of
the three rolling-mean columns. -/
def get_indicators (fetch : String → Option (List ℚ)) (symbol : String) :
    Option IndicatorSnapshot :=
  match fetch symbol with
  | none => none
  | some closes =>
    if closes.isEmpty then none
    else
      match (rollingMeanList 20 closes).getLast?, (rollingMeanList 50 closes).getLast?,
          (rollingMeanList 100 closes).getLast? with
      | some a, some b, some c => some ⟨a, b, c⟩
      | _, _, _ => none

/-- `is_aots(symbol)`: `False` when indicators are unavailable, otherwise
the chained comparison `MA20 > MA50 > MA100`. -/
def is_aots (fetch : String → Option (List ℚ)) (symbol : String) : Bool :=
  match get_indicators fetch symbol with
  | none => false
  | some row => decide (row.MA20 > row.MA50 ∧ row.MA50 > row.MA100)

/-! ## Scan loop accumulation -/

/-- Model of Python's `sym.replace("USDT", "")`: remove every
(left-to-right, non-overlapping) occurrence of `USDT`. -/
def removeUSDT : List Char → List Char
  | [] => []
  | 'U' :: 'S' :: 'D' :: 'T' :: rest => removeUSDT rest
  | c :: rest => c :: removeUSDT rest

/-- Display normalization applied before appending to `tier2`. -/
def strip_usdt (s : String) : String := String.mk (removeUSDT s.data)

/-- The `tier2` accumulation of `on_ready`: iterate the universe in order,
append the normalized symbol whenever `is_aots` holds. -/
def scan_tier2 (fetch : String → Option (List ℚ)) : List String → List String
  | [] => []
  | sym :: rest =>
    if is_aots fetch sym then strip_usdt sym :: scan_tier2 fetch rest
    else scan_tier2 fetch rest

/-! ## Startup configuration -/

/-- The environment variables the module reads at import time. -/
structure Env where
  DISCORD_TOKEN : Option String
  BINANCE_API_KEY : Option String
  BINANCE_API_SECRET : Option String
  PORT : Option String

/-- Python truthiness of an `os.getenv` result: `None` and `""` are falsy. -/
def truthy : Option String → Bool
  | none => false
  | some s => !s.isEmpty

/-- The hardcoded channel identifier of `main.py` (line 19); it is not
read from the environment. -/
def CHANNEL_ID : Nat := 1411642002319347784

/-- The module-level guard (lines 23–24): raise iff
`not all([DISCORD_TOKEN, BINANCE_API_KEY, BINANCE_API_SECRET])`. -/
def module_config_guard (e : Env) : Except String Unit :=
  if truthy e.DISCORD_TOKEN && truthy e.BINANCE_API_KEY && truthy e.BINANCE_API_SECRET then
    Except.ok ()
  else
    Except.error ("Missing environment variables! Please set DISCORD_TOKEN, BINANCE_API_KEY, BINANCE_API_SECRET.")

/-- Port selection of `run_web` (line 151): `int(os.getenv("PORT", 8080))`;
a missing variable defaults to 8080 and never fails. -/
def run_web_port (e : Env) : Option Nat :=
  match e.PORT with
  | none => some 8080
  | some s => s.toNat?

/-! ## Specification-side definitions for the packer claims -/

/-- A chunk the spec's cap claim accepts without invoking the overflow-note
exception: within the cap, or the bare prefix, or the prefix plus one
single input symbol (the oversized-symbol chunks the code emits). -/
def withinCap (MFC : Nat) (pre : String) (symbols : List String) (c : String) : Prop :=
  c.length ≤ MFC ∨ c = pre ∨ ∃ s ∈ symbols, c = pre ++ s

/-- Splitting a character list on the two-character separator `", "`,
modelling `text.split(", ")` applied during the round-trip reading of a
chunk. -/
def splitComma : List Char → List (List Char)
  | [] => [[]]
  | [c] => [[c]]
  | c :: d :: rest =>
    if c = ',' ∧ d = ' ' then [] :: splitComma rest
    else
      match splitComma (d :: rest) with
      | [] => [[c]]
      | g :: gs => (c :: g) :: gs

/-- Character-level `", ".join`, used to relate `joinComma` to `splitComma`. -/
def charJoin : List (List Char) → List Char
  | [] => []
  | [g] => g
  | g :: h :: rest => g ++ ',' :: ' ' :: charJoin (h :: rest)

/-- Literal round-trip extraction of the claim: for each chunk, strip the
prefix, ignore everything from the newline that precedes an appended
overflow note, and split the rest on `", "`. -/
def extractSymbols (pre : String) (chunks : List String) : List (List Char) :=
  chunks.flatMap (fun c => splitComma ((c.data.drop pre.length).takeWhile (fun ch => ch != '\n')))

/-- Round-trip extraction amended to skip chunks whose symbol content is
empty (the packer can emit a bare-prefix chunk containing no symbols). -/
def extractSymbolsNE (pre : String) (chunks : List String) : List (List Char) :=
  chunks.flatMap (fun c =>
    let body := (c.data.drop pre.length).takeWhile (fun ch => ch != '\n')
    if body.isEmpty then [] else splitComma body)

/-- The symbols actually placed into some output chunk, read off the loop
result exactly as the post-loop flush decides placement: when the final
flush fires (`curr_list` non-empty and fewer than `MEF` chunks) every
consumed symbol is placed; otherwise the held-back `curr_list` (the symbol
the chunk-cap break strands, or nothing) is subtracted from the consumed
count.  The claim's `processedCount` — "symbols actually placed" — is the
length of this list. -/
def placed_symbols (MFC MEF : Nat) (symbols : List String) (pre : String) : List String :=
  let r := chunk_loop MFC MEF pre symbols [] [] pre.length 0
  if r.2.1 ≠ [] ∧ r.1.length < MEF then symbols.take r.2.2
  else symbols.take (r.2.2 - r.2.1.length)

/-! ## Basic string and list lemmas -/

/-- Appending the empty string on the right is the identity. -/
theorem string_append_empty (s : String) : s ++ ("") = s := by
  cases s with
  | mk d => exact congrArg String.mk (List.append_nil d)

/-- Appending the empty string on the left is the identity. -/
theorem string_empty_append (s : String) : ("") ++ s = s := rfl

/-- The length of a string is the length of its character list. -/
theorem string_length_data (s : String) : s.length = s.data.length := rfl

/-- Character data of an appended string. -/
theorem string_data_append (a b : String) : (a ++ b).data = a.data ++ b.data := rfl

/-- Rendering an empty current list yields the bare prefix. -/
theorem renderChunk_nil (pre : String) : renderChunk pre [] = pre := by
  show pre ++ joinComma [] = pre
  exact string_append_empty pre

/-- Rendering a singleton current list. -/
theorem renderChunk_singleton (pre s : String) : renderChunk pre [s] = pre ++ s := rfl

/-- Length of the bare-prefix chunk. -/
theorem renderChunk_nil_length (pre : String) : (renderChunk pre []).length = pre.length := by
  rw [renderChunk_nil]

/-- Length of a singleton chunk. -/
theorem renderChunk_singleton_length (pre s : String) :
    (renderChunk pre [s]).length = pre.length + s.length := by
  rw [renderChunk_singleton, String.length_append]

/-- Joining after appending one more symbol appends the separator (when the
list was non-empty) and the symbol. -/
theorem joinComma_concat (l : List String) (x : String) :
    joinComma (l ++ [x]) = joinComma l ++ ((if l.isEmpty then "" else ", ") ++ x) := by
  induction l with
  | nil => simp [joinComma, List.isEmpty]
  | cons a t ih =>
    cases t with
    | nil => simp [joinComma, List.isEmpty, string_empty_append, String.append_assoc]
    | cons b t' =>
      have step : ((a :: b :: t') ++ [x]) = a :: ((b :: t') ++ [x]) := rfl
      rw [step]
      have hne : ((b :: t') ++ [x]) = b :: (t' ++ [x]) := rfl
      calc joinComma (a :: ((b :: t') ++ [x]))
          = a ++ ", " ++ joinComma ((b :: t') ++ [x]) := by rw [hne]; rfl
        _ = a ++ ", " ++ (joinComma (b :: t') ++ ((if (b :: t').isEmpty then "" else ", ") ++ x)) := by
            rw [ih]
        _ = joinComma (a :: b :: t') ++ ((if (a :: b :: t').isEmpty then "" else ", ") ++ x) := by
            simp [joinComma, List.isEmpty, String.append_assoc]

/-- Length bookkeeping of the loop: growing the current chunk adds exactly
the token length the code adds to `curr_len`. -/
theorem renderChunk_concat_length (pre : String) (l : List String) (x : String) :
    (renderChunk pre (l ++ [x])).length
      = (renderChunk pre l).length + (tokenFor l x).length := by
  simp [renderChunk, tokenFor, joinComma_concat, String.length_append, Nat.add_assoc]

/-! ## Claim C1 — overflow-note bookkeeping (code bug) -/

/-- C1: evaluation at the failing input.  With cap 3 characters, 1 chunk
and empty prefix, the input `["aa", "bb"]` produces just `["aa"]`: the
symbol `"bb"` is counted by `processed_count` when the chunk cap breaks the
loop, yet it is placed into no chunk, so `remaining = 0` and no
`"...and 1 more"` note is emitted even though one symbol was dropped. -/
theorem C1_packer_drops_symbol_at_cap :
    chunk_symbols_into_fields 3 1 ["aa", "bb"] ("") = ["aa"] ∧
    chunk_symbols_into_fields 3 1 ["aa", "bb"] ("") ≠ ["aa" ++ "\n" ++ "...and 1 more"] := by
  constructor
  · decide
  · decide

/-! ## Claim C4 — required configuration (corrected) -/

/-- C4 counterexample: an environment with the chat token and both
data-source credentials set but `PORT` absent passes the startup guard, and
the liveness port silently defaults to 8080 — startup does not fail even
though a "required" value is absent.  (The channel identifier is the
hardcoded constant `CHANNEL_ID` and cannot be absent at all.) -/
theorem C4_port_not_required_counterexample :
    module_config_guard ⟨some ("t"), some ("k"), some ("s"), none⟩ = Except.ok () ∧
    (⟨some ("t"), some ("k"), some ("s"), none⟩ : Env).PORT = none ∧
    run_web_port ⟨some ("t"), some ("k"), some ("s"), none⟩ = some 8080 := by
  exact ⟨rfl, rfl, rfl⟩

/-- C4 (amended): startup fails fast iff the destination chat token or
either data-source credential is absent or empty; the destination channel
identifier is hardcoded and the listen port defaults to 8080, so neither is
required configuration. -/
theorem C4_config_guard_amended (e : Env) :
    module_config_guard e = Except.ok () ↔
      (truthy e.DISCORD_TOKEN = true ∧ truthy e.BINANCE_API_KEY = true ∧
        truthy e.BINANCE_API_SECRET = true) := by
  unfold module_config_guard
  by_cases h : truthy e.DISCORD_TOKEN && truthy e.BINANCE_API_KEY && truthy e.BINANCE_API_SECRET
  · rw [if_pos h]
    simp only [Bool.and_eq_true] at h
    simp [h.1.1, h.1.2, h.2]
  · rw [if_neg h]
    constructor
    · intro hcontr; cases hcontr
    · rintro ⟨h1, h2, h3⟩
      exact absurd (by simp [h1, h2, h3]) h

/-! ## Claim C5 — classifier (confirmed) -/

/-- C5: the classifier returns `true` iff an indicator snapshot exists and
both strict inequalities `MA20 > MA50` and `MA50 > MA100` hold; a missing
snapshot yields `false` rather than an error. -/
theorem C5_classifier_iff (fetch : String → Option (List ℚ)) (sym : String) :
    (is_aots fetch sym = true ↔
      ∃ row, get_indicators fetch sym = some row ∧
        row.MA20 > row.MA50 ∧ row.MA50 > row.MA100) ∧
    (get_indicators fetch sym = none → is_aots fetch sym = false) := by
  constructor
  · unfold is_aots
    cases hind : get_indicators fetch sym with
    | none => simp
    | some row => simp [decide_eq_true_iff]
  · intro hnone
    unfold is_aots
    rw [hnone]

/-- C5 witness: with a fetch capability that always fails, the classifier
returns `false` for a concrete symbol. -/
theorem C5_classifier_iff_witness :
    is_aots (fun _ => none) ("BTCUSDT") = false :=
  (C5_classifier_iff (fun _ => none) ("BTCUSDT")).2 rfl

/-! ## Claim C3 — scan order (confirmed) -/

/-- C3: the scan accumulation equals, exactly, the in-order filter of the
universe by the classifier with each kept symbol display-normalized by
removing the `USDT` quote-currency suffix; the filtered list is a sublist
of the universe, so relative order is preserved. -/
theorem C3_scan_order_preserving (fetch : String → Option (List ℚ)) (univ : List String) :
    scan_tier2 fetch univ
        = (univ.filter (fun s => is_aots fetch s)).map strip_usdt ∧
    List.Sublist (univ.filter (fun s => is_aots fetch s)) univ ∧
    strip_usdt ("BTCUSDT") = "BTC" := by
  refine ⟨?_, List.filter_sublist univ, rfl⟩
  induction univ with
  | nil => rfl
  | cons s rest ih =>
    cases h : is_aots fetch s <;> simp [scan_tier2, List.filter_cons, h, ih]

/-! ## Claim C8 — trailing mean (confirmed) -/

/-- C8: for a non-empty series the last entry of the rolling-mean column is
the arithmetic mean of the `min w length` most recent closing prices
(min-periods semantics: short series average over fewer points), and a
fetch that yields an empty candle list makes `get_indicators` return
`none` (Unavailable). -/
theorem C8_trailing_mean (closes : List ℚ) (w : Nat) (h : closes ≠ []) :
    (rollingMeanList w closes).getLast?
        = some (listMean (closes.drop (closes.length - min w closes.length))) ∧
    (∀ fetch sym, fetch sym = some ([] : List ℚ) → get_indicators fetch sym = none) := by
  constructor
  · obtain ⟨m, hm⟩ : ∃ m, closes.length = m + 1 := by
      cases hl : closes.length with
      | zero => exact absurd (List.length_eq_zero.mp hl) h
      | succ m => exact ⟨m, rfl⟩
    unfold rollingMeanList
    conv_lhs => rw [hm, List.range_succ]
    simp only [List.map_append, List.map_cons, List.map_nil, List.getLast?_concat]
    have htake : closes.take (m + 1) = closes := by
      rw [← hm]; exact List.take_length closes
    have hidx : m + 1 - w = closes.length - min w closes.length := by omega
    rw [htake, hidx]
  · intro fetch sym hf
    unfold get_indicators
    rw [hf]
    rfl

/-- C8 witness: concrete instance at the series `[1, 2, 3]` with window 2,
and at an always-empty fetch capability. -/
theorem C8_trailing_mean_witness :
    (rollingMeanList 2 ([1, 2, 3] : List ℚ)).getLast?
        = some (listMean (([1, 2, 3] : List ℚ).drop
            (([1, 2, 3] : List ℚ).length - min 2 ([1, 2, 3] : List ℚ).length))) ∧
    get_indicators (fun _ => some ([] : List ℚ)) ("BTCUSDT") = none := by
  refine ⟨(C8_trailing_mean ([1, 2, 3] : List ℚ) 2 (by simp)).1, ?_⟩
  exact (C8_trailing_mean ([1, 2, 3] : List ℚ) 2 (by simp)).2 (fun _ => some []) ("BTCUSDT") rfl

/-! ## Counterexamples for the packer claims C2, C6, C7, C10 -/

/-- C2 counterexample: with cap 3, chunk budget 5 and empty prefix, the
single oversized symbol `"aaaa"` is packed as the chunk `"aaaa"` of length
4 > 3, and no overflow note is appended anywhere (no chunk contains a
newline), so the claimed single exception does not apply. -/
theorem C2_cap_exceeded_counterexample :
    chunk_symbols_into_fields 3 5 ["aaaa"] ("") = ["", "aaaa"] ∧
    ¬ (("aaaa" : String).length ≤ 3) ∧
    (∀ c ∈ chunk_symbols_into_fields 3 5 ["aaaa"] (""), ('\n') ∉ c.data) := by
  refine ⟨by decide, by decide, by decide⟩

/-- C6 counterexample: for the oversized first symbol `"aaaa"` (cap 3,
empty prefix) the packer emits a bare-prefix chunk with no symbols;
stripping prefixes and splitting every chunk on `", "` yields the spurious
empty symbol first, so the extracted list is not a prefix of the input. -/
theorem C6_roundtrip_counterexample :
    ¬ (extractSymbols ("") (chunk_symbols_into_fields 3 5 ["aaaa"] (""))
        <+: (["aaaa"].map String.data)) := by
  decide

/-- C7 counterexample: with `maxChunks = 0` the packer still emits one
chunk (the loop appends a chunk before checking the cap), and no overflow
note is forced into it, so the claimed bound `≤ maxChunks` fails. -/
theorem C7_chunk_count_counterexample :
    chunk_symbols_into_fields 1 0 ["aa"] ("") = [""] ∧
    ¬ ((chunk_symbols_into_fields 1 0 ["aa"] ("")).length ≤ 0) := by
  refine ⟨by decide, by decide⟩

/-- C10 counterexample: with `maxChunks = 1` an oversized first symbol
produces only the bare-prefix chunk — the oversized symbol starts no next
chunk; it is dropped entirely. -/
theorem C10_oversized_first_counterexample :
    10 < ("X " : String).length + ("aaaaaaaaaaaa" : String).length ∧
    chunk_symbols_into_fields 10 1 ["aaaaaaaaaaaa"] ("X ") = ["X "] := by
  refine ⟨by decide, by decide⟩

/-! ## Invariants of the packing loop -/

/-- Shape invariant of every chunk the loop builds: its rendered text is
within the cap, or it holds at most one symbol (the oversized case; the
empty case is the bare prefix). -/
def GroupOK (MFC : Nat) (pre : String) (g : List String) : Prop :=
  (renderChunk pre g).length ≤ MFC ∨ g.length ≤ 1

/-- The loop only appends to `fields`. -/
theorem chunk_loop_grow (MFC MEF : Nat) (pre : String) :
    ∀ (syms fields curr : List String) (clen p : Nat),
    ∃ t, (chunk_loop MFC MEF pre syms fields curr clen p).1 = fields ++ t := by
  intro syms
  induction syms with
  | nil =>
    intro fields curr clen p
    exact ⟨[], by simp [chunk_loop]⟩
  | cons sym rest ih =>
    intro fields curr clen p
    simp only [chunk_loop]
    by_cases hfit : clen + (tokenFor curr sym).length ≤ MFC
    · rw [if_pos hfit]
      exact ih fields _ _ _
    · rw [if_neg hfit]
      by_cases hbrk : MEF ≤ (fields ++ [renderChunk pre curr]).length
      · rw [if_pos hbrk]
        exact ⟨[renderChunk pre curr], rfl⟩
      · rw [if_neg hbrk]
        obtain ⟨t, ht⟩ := ih (fields ++ [renderChunk pre curr]) [sym] (pre.length + sym.length) (p + 1)
        exact ⟨[renderChunk pre curr] ++ t, by rw [ht, List.append_assoc]⟩

/-- If the loop starts strictly below the chunk budget, it ends with at
most `MEF` chunks (the break fires right after the append that reaches the
budget). -/
theorem chunk_loop_len (MFC MEF : Nat) (pre : String) :
    ∀ (syms fields curr : List String) (clen p : Nat),
    fields.length < MEF →
    (chunk_loop MFC MEF pre syms fields curr clen p).1.length ≤ MEF := by
  intro syms
  induction syms with
  | nil =>
    intro fields curr clen p h
    simpa [chunk_loop] using Nat.le_of_lt h
  | cons sym rest ih =>
    intro fields curr clen p h
    simp only [chunk_loop]
    by_cases hfit : clen + (tokenFor curr sym).length ≤ MFC
    · rw [if_pos hfit]
      exact ih fields _ _ _ h
    · rw [if_neg hfit]
      by_cases hbrk : MEF ≤ (fields ++ [renderChunk pre curr]).length
      · rw [if_pos hbrk]
        simp only [List.length_append, List.length_cons, List.length_nil]
        omega
      · rw [if_neg hbrk]
        apply ih
        simp only [List.length_append, List.length_cons, List.length_nil] at hbrk ⊢
        omega

/-- The chunk budget is irrelevant to a run that never reaches it: a run
under budget `M1` that ends strictly below both `M1` and `M2` is also the
run under budget `M2`. -/
theorem chunk_loop_irrel (MFC M1 M2 : Nat) (pre : String) :
    ∀ (syms fields curr : List String) (clen p : Nat) (f' c' : List String) (p' : Nat),
    chunk_loop MFC M1 pre syms fields curr clen p = (f', c', p') →
    f'.length < M1 → f'.length < M2 →
    chunk_loop MFC M2 pre syms fields curr clen p = (f', c', p') := by
  intro syms
  induction syms with
  | nil =>
    intro fields curr clen p f' c' p' hrun h1 h2
    simpa [chunk_loop] using hrun
  | cons sym rest ih =>
    intro fields curr clen p f' c' p' hrun h1 h2
    simp only [chunk_loop] at hrun ⊢
    by_cases hfit : clen + (tokenFor curr sym).length ≤ MFC
    · rw [if_pos hfit] at hrun ⊢
      exact ih fields _ _ _ f' c' p' hrun h1 h2
    · rw [if_neg hfit] at hrun ⊢
      by_cases hbrk : M1 ≤ (fields ++ [renderChunk pre curr]).length
      · rw [if_pos hbrk] at hrun
        injection hrun with e1 e23
        exact absurd h1 (by rw [← e1]; omega)
      · rw [if_neg hbrk] at hrun
        have hres := ih _ [sym] _ _ f' c' p' hrun h1 h2
        obtain ⟨t, ht⟩ :=
          chunk_loop_grow MFC M2 pre rest (fields ++ [renderChunk pre curr]) [sym]
            (pre.length + sym.length) (p + 1)
        rw [hres] at ht
        have hf'eq : f' = (fields ++ [renderChunk pre curr]) ++ t := ht
        have hlen : (fields ++ [renderChunk pre curr]).length ≤ f'.length := by
          rw [hf'eq]
          simp only [List.length_append]
          omega
        rw [if_neg (fun hcon => Nat.lt_irrefl M2 (Nat.lt_of_le_of_lt (Nat.le_trans hcon hlen) h2))]
        exact hres

/-- Main loop invariant: the resulting `fields` renders a list of symbol
groups, every group and the final current list satisfy `GroupOK`, the
groups followed by the current list are exactly the consumed initial
segment of the input, `processed_count` counts exactly the consumed
symbols, and either all symbols were consumed or the loop broke with at
least `MEF` chunks emitted. -/
theorem chunk_loop_spec (MFC MEF : Nat) (pre : String) :
    ∀ (syms fields curr : List String) (clen p : Nat) (f' c' : List String) (p' : Nat)
      (gs : List (List String)),
    chunk_loop MFC MEF pre syms fields curr clen p = (f', c', p') →
    fields = gs.map (renderChunk pre) →
    clen = (renderChunk pre curr).length →
    (∀ g ∈ gs, GroupOK MFC pre g) →
    GroupOK MFC pre curr →
    ∃ (gs2 : List (List String)) (n : Nat),
      f' = gs2.map (renderChunk pre) ∧
      (∀ g ∈ gs2, GroupOK MFC pre g) ∧
      GroupOK MFC pre c' ∧
      gs2.flatten ++ c' = gs.flatten ++ curr ++ syms.take n ∧
      n ≤ syms.length ∧
      p' = p + n ∧
      (n = syms.length ∨ (MEF ≤ f'.length ∧ f' ≠ [])) := by
  intro syms
  induction syms with
  | nil =>
    intro fields curr clen p f' c' p' gs hrun hf hc hgok hcok
    simp only [chunk_loop] at hrun
    injection hrun with e1 e23
    injection e23 with e2 e3
    subst e1; subst e2; subst e3
    exact ⟨gs, 0, hf, hgok, hcok, by simp, Nat.zero_le _, by omega, Or.inl rfl⟩
  | cons sym rest ih =>
    intro fields curr clen p f' c' p' gs hrun hf hc hgok hcok
    simp only [chunk_loop] at hrun
    by_cases hfit : clen + (tokenFor curr sym).length ≤ MFC
    · rw [if_pos hfit] at hrun
      have hc2 : clen + (tokenFor curr sym).length
          = (renderChunk pre (curr ++ [sym])).length := by
        rw [renderChunk_concat_length, hc]
      have hcok2 : GroupOK MFC pre (curr ++ [sym]) := Or.inl (by rw [← hc2]; exact hfit)
      obtain ⟨gs2, n, h1, h2, h3, h4, h5, h6, h7⟩ :=
        ih fields (curr ++ [sym]) _ (p + 1) f' c' p' gs hrun hf hc2 hgok hcok2
      refine ⟨gs2, n + 1, h1, h2, h3, ?_, ?_, by omega, ?_⟩
      · rw [List.take_succ_cons, h4]
        simp [List.append_assoc]
      · simp only [List.length_cons]
        omega
      · rcases h7 with h7 | h7
        · exact Or.inl (by simp [h7])
        · exact Or.inr h7
    · rw [if_neg hfit] at hrun
      by_cases hbrk : MEF ≤ (fields ++ [renderChunk pre curr]).length
      · rw [if_pos hbrk] at hrun
        injection hrun with e1 e23
        injection e23 with e2 e3
        subst e1; subst e2; subst e3
        refine ⟨gs ++ [curr], 1, ?_, ?_, Or.inr (by simp), ?_, ?_, by omega, ?_⟩
        · rw [hf]; simp [List.map_append]
        · intro g hg
          rcases List.mem_append.mp hg with hmem | hmem
          · exact hgok g hmem
          · rw [List.mem_singleton.mp hmem]; exact hcok
        · rw [show (sym :: rest).take 1 = [sym] from rfl]
          simp [List.flatten_append, List.append_assoc]
        · simp only [List.length_cons]
          omega
        · exact Or.inr ⟨hbrk, by simp⟩
      · rw [if_neg hbrk] at hrun
        have hfok : ∀ g ∈ gs ++ [curr], GroupOK MFC pre g := by
          intro g hg
          rcases List.mem_append.mp hg with hmem | hmem
          · exact hgok g hmem
          · rw [List.mem_singleton.mp hmem]; exact hcok
        obtain ⟨gs2, n, h1, h2, h3, h4, h5, h6, h7⟩ :=
          ih (fields ++ [renderChunk pre curr]) [sym] _ (p + 1) f' c' p' (gs ++ [curr]) hrun
            (by rw [hf]; simp [List.map_append]) (renderChunk_singleton_length pre sym).symm
            hfok (Or.inr (by simp))
        refine ⟨gs2, n + 1, h1, h2, h3, ?_, ?_, by omega, ?_⟩
        · rw [List.take_succ_cons, h4]
          simp [List.flatten_append, List.append_assoc]
        · simp only [List.length_cons]
          omega
        · rcases h7 with h7 | h7
          · exact Or.inl (by simp [h7])
          · exact Or.inr h7

/-- Membership of the last element. -/
theorem getLast?_mem_self (l : List String) (a : String) (h : l.getLast? = some a) : a ∈ l := by
  obtain ⟨hne, heq⟩ := List.mem_getLast?_eq_getLast (Option.mem_def.mpr h)
  rw [heq]
  exact List.getLast_mem hne

/-- Output-shape case analysis of the packer: the output renders a list of
symbol groups, all satisfying `GroupOK`, whose concatenation is an initial
segment of the input; either as-is, or with the overflow note appended to
the rendering of the last group.  (The dead `fields.append(note)` branch is
ruled out: a positive `remaining` implies the loop broke with at least
`MEF` chunks, so the note always lands on the last chunk.) -/
theorem chunk_fields_cases (MFC MEF : Nat) (symbols : List String) (pre : String) :
    ∃ gsAll : List (List String),
      (∀ g ∈ gsAll, GroupOK MFC pre g) ∧
      (∀ g ∈ gsAll, ∀ s ∈ g, s ∈ symbols) ∧
      gsAll.flatten <+: symbols ∧
      gsAll.flatten = placed_symbols MFC MEF symbols pre ∧
      (chunk_symbols_into_fields MFC MEF symbols pre = gsAll.map (renderChunk pre) ∨
        ∃ (gsInit : List (List String)) (gLast : List String) (n : Nat),
          gsAll = gsInit ++ [gLast] ∧ 0 < n ∧
          chunk_symbols_into_fields MFC MEF symbols pre
            = gsInit.map (renderChunk pre)
              ++ [renderChunk pre gLast ++ "\n" ++ ("...and " ++ toString n ++ " more")]) := by
  rcases hrun : chunk_loop MFC MEF pre symbols [] [] pre.length 0 with ⟨f', c', p'⟩
  obtain ⟨gs2, n, h1, h2, h3, h4, h5, h6, h7⟩ :=
    chunk_loop_spec MFC MEF pre symbols [] [] pre.length 0 f' c' p' [] hrun rfl
      (renderChunk_nil_length pre).symm (by intro g hg; cases hg) (Or.inr (by simp))
  have hcontent : gs2.flatten ++ c' = symbols.take n := by simpa using h4
  have hpre2 : gs2.flatten <+: symbols :=
    List.IsPrefix.trans ⟨c', hcontent⟩ (List.take_prefix n symbols)
  have hmem2 : ∀ g ∈ gs2, ∀ s ∈ g, s ∈ symbols := by
    intro g hg s hs
    exact hpre2.subset (List.mem_flatten.mpr ⟨g, hg, hs⟩)
  have hps : placed_symbols MFC MEF symbols pre
      = if c' ≠ [] ∧ f'.length < MEF then symbols.take p'
        else symbols.take (p' - c'.length) := by
    simp only [placed_symbols]
    rw [hrun]
  simp only [chunk_symbols_into_fields]
  rw [hrun]
  dsimp only
  by_cases hflush : c' ≠ [] ∧ f'.length < MEF
  · rw [if_pos hflush]
    have hn : n = symbols.length := by
      rcases h7 with h | h
      · exact h
      · exact absurd h.1 (by omega)
    have hrem : ¬ 0 < symbols.length - p' := by omega
    rw [if_neg hrem]
    have hfl : (gs2 ++ [c']).flatten = symbols.take n := by
      simp only [List.flatten_append, List.flatten_cons, List.flatten_nil, List.append_nil]
      exact hcontent
    refine ⟨gs2 ++ [c'], ?_, ?_, ?_, ?_, Or.inl ?_⟩
    · intro g hg
      rcases List.mem_append.mp hg with hmem | hmem
      · exact h2 g hmem
      · rw [List.mem_singleton.mp hmem]; exact h3
    · intro g hg s hs
      have hsfl : s ∈ (gs2 ++ [c']).flatten := List.mem_flatten.mpr ⟨g, hg, hs⟩
      rw [hfl] at hsfl
      exact List.take_subset n symbols hsfl
    · rw [hfl]
      exact List.take_prefix n symbols
    · rw [hfl, hps, if_pos hflush, show p' = n from by omega]
    · rw [h1, List.map_append]
      simp
  · rw [if_neg hflush]
    have hflen : gs2.flatten.length + c'.length = n := by
      have hlen := congrArg List.length hcontent
      simp only [List.length_append, List.length_take] at hlen
      omega
    have hfl2 : gs2.flatten = symbols.take (p' - c'.length) := by
      have hpref : gs2.flatten <+: symbols.take n := ⟨c', hcontent⟩
      have heq := List.prefix_iff_eq_take.mp hpref
      rw [List.take_take] at heq
      rw [show min gs2.flatten.length n = p' - c'.length from by omega] at heq
      exact heq
    have hplaced2 : gs2.flatten = placed_symbols MFC MEF symbols pre := by
      rw [hps, if_neg hflush]
      exact hfl2
    by_cases hrem : 0 < symbols.length - p'
    · rw [if_pos hrem]
      have hbr : MEF ≤ f'.length ∧ f' ≠ [] := by
        rcases h7 with h | h
        · exfalso; omega
        · exact h
      rw [if_neg (by omega : ¬ f'.length < MEF)]
      have hgs2ne : gs2 ≠ [] := by
        intro hnil
        rw [hnil] at h1
        simp only [List.map_nil] at h1
        exact hbr.2 h1
      obtain ⟨gsInit, gLast, hdec⟩ : ∃ gsInit gLast, gs2 = gsInit ++ [gLast] := by
        rcases List.eq_nil_or_concat gs2 with hcon | ⟨L, b, hcon⟩
        · exact absurd hcon hgs2ne
        · exact ⟨L, b, by simpa [List.concat_eq_append] using hcon⟩
      refine ⟨gs2, h2, hmem2, hpre2, hplaced2,
        Or.inr ⟨gsInit, gLast, symbols.length - p', hdec, hrem, ?_⟩⟩
      rw [h1, hdec, List.map_append]
      simp [List.dropLast_concat]
    · rw [if_neg hrem]
      exact ⟨gs2, h2, hmem2, hpre2, hplaced2, Or.inl h1⟩

/-! ## Claim C2 — chunk cap (corrected) -/

/-- C2 (amended): every produced chunk is within `maxCharsPerChunk`, or is
the bare prefix, or is the prefix plus one single oversized input symbol,
or is the last chunk carrying the appended overflow note on top of such a
chunk.  The oversized-symbol exceptions are forced by the counterexample:
a symbol that alone exceeds the cap is still emitted as its own chunk. -/
theorem C2_chunk_cap_amended (MFC MEF : Nat) (symbols : List String) (pre : String) :
    (∀ c ∈ (chunk_symbols_into_fields MFC MEF symbols pre).dropLast,
        withinCap MFC pre symbols c) ∧
    (∀ c, (chunk_symbols_into_fields MFC MEF symbols pre).getLast? = some c →
        withinCap MFC pre symbols c ∨
          ∃ c0, withinCap MFC pre symbols c0 ∧
            ∃ k : Nat, c = c0 ++ "\n" ++ ("...and " ++ toString k ++ " more")) := by
  obtain ⟨gsAll, hgok, hmem, hpre, hplaced, hout⟩ := chunk_fields_cases MFC MEF symbols pre
  have hwc : ∀ g ∈ gsAll, withinCap MFC pre symbols (renderChunk pre g) := by
    intro g hg
    rcases hgok g hg with hle | hsmall
    · exact Or.inl hle
    · rcases g with _ | ⟨s, _ | ⟨s2, t⟩⟩
      · exact Or.inr (Or.inl (renderChunk_nil pre))
      · exact Or.inr (Or.inr ⟨s, hmem _ hg s (by simp), renderChunk_singleton pre s⟩)
      · simp at hsmall
  rcases hout with hout | ⟨gsInit, gLast, k, hdec, hk, hout⟩
  · constructor
    · intro c hc
      rw [hout] at hc
      have hcm : c ∈ gsAll.map (renderChunk pre) := List.dropLast_subset _ hc
      obtain ⟨g, hg, rfl⟩ := List.mem_map.mp hcm
      exact hwc g hg
    · intro c hc
      rw [hout] at hc
      have hcm : c ∈ gsAll.map (renderChunk pre) := getLast?_mem_self _ _ hc
      obtain ⟨g, hg, rfl⟩ := List.mem_map.mp hcm
      exact Or.inl (hwc g hg)
  · constructor
    · intro c hc
      rw [hout, List.dropLast_concat] at hc
      obtain ⟨g, hg, rfl⟩ := List.mem_map.mp hc
      exact hwc g (by rw [hdec]; exact List.mem_append.mpr (Or.inl hg))
    · intro c hc
      rw [hout, List.getLast?_concat] at hc
      have hceq := Option.some.inj hc
      subst hceq
      right
      exact ⟨renderChunk pre gLast,
        hwc gLast (by rw [hdec]; exact List.mem_append.mpr (Or.inr (by simp))), k, rfl⟩

/-- C2 witness: at cap 3, budget 5, input `["aaaa"]`, empty prefix, the
amended statement applies to the concrete output `["", "aaaa"]`. -/
theorem C2_chunk_cap_amended_witness :
    withinCap 3 ("") ["aaaa"] ("") ∧
    (withinCap 3 ("") ["aaaa"] ("aaaa") ∨
      ∃ c0, withinCap 3 ("") ["aaaa"] c0 ∧
        ∃ k : Nat, "aaaa" = c0 ++ "\n" ++ ("...and " ++ toString k ++ " more")) := by
  constructor
  · exact (C2_chunk_cap_amended 3 5 ["aaaa"] ("")).1 ("") (by decide)
  · exact (C2_chunk_cap_amended 3 5 ["aaaa"] ("")).2 ("aaaa") (by decide)

/-! ## Claim C7 — chunk count (corrected) -/

/-- C7 (amended): for every positive chunk budget the packer emits at most
`maxChunks` chunks — the overflow note never increases the count beyond
`maxChunks` because, whenever the note exists, the chunk budget was already
reached and the note is concatenated onto the last chunk.  (Only the
degenerate budget `maxChunks = 0` can be exceeded, by one chunk.) -/
theorem C7_chunk_count_amended (MFC MEF : Nat) (symbols : List String) (pre : String)
    (h : 1 ≤ MEF) :
    (chunk_symbols_into_fields MFC MEF symbols pre).length ≤ MEF := by
  rcases hrun : chunk_loop MFC MEF pre symbols [] [] pre.length 0 with ⟨f', c', p'⟩
  have hlen : f'.length ≤ MEF := by
    have hl := chunk_loop_len MFC MEF pre symbols [] [] pre.length 0 (by simpa using h)
    rw [hrun] at hl
    exact hl
  simp only [chunk_symbols_into_fields]
  rw [hrun]
  dsimp only
  by_cases hflush : c' ≠ [] ∧ f'.length < MEF
  · rw [if_pos hflush]
    by_cases hrem : 0 < symbols.length - p'
    · rw [if_pos hrem]
      by_cases hfits : (f' ++ [renderChunk pre c']).length < MEF
      · rw [if_pos hfits]
        simp only [List.length_append, List.length_cons, List.length_nil] at hfits ⊢
        omega
      · rw [if_neg hfits]
        simp only [List.length_append, List.length_dropLast, List.length_cons,
          List.length_nil]
        have := hflush.2
        omega
    · rw [if_neg hrem]
      simp only [List.length_append, List.length_cons, List.length_nil]
      have := hflush.2
      omega
  · rw [if_neg hflush]
    by_cases hrem : 0 < symbols.length - p'
    · rw [if_pos hrem]
      by_cases hfits : f'.length < MEF
      · rw [if_pos hfits]
        simp only [List.length_append, List.length_cons, List.length_nil]
        omega
      · rw [if_neg hfits]
        simp only [List.length_append, List.length_dropLast, List.length_cons,
          List.length_nil]
        omega
    · rw [if_neg hrem]
      exact hlen

/-- C7 witness: a concrete instance with the production cap values. -/
theorem C7_chunk_count_amended_witness :
    1 ≤ 20 ∧ (chunk_symbols_into_fields 1000 20 ["BTC", "ETH"] ("🟢 ")).length ≤ 20 :=
  ⟨by decide, C7_chunk_count_amended 1000 20 ["BTC", "ETH"] ("🟢 ") (by decide)⟩

/-! ## Round-trip lemmas: splitting rendered chunks recovers the groups -/

/-- An infix of the tail is an infix of the whole list. -/
theorem sep_infix_cons (c : Char) (cs : List Char) (h : [',', ' '] <:+: cs) :
    [',', ' '] <:+: c :: cs := by
  obtain ⟨s, t, hh⟩ := h
  exact ⟨c :: s, t, by rw [← hh]; simp⟩

/-- A separator-free character list splits into itself. -/
theorem splitComma_sepFree : ∀ cs : List Char, ¬ ([',', ' '] <:+: cs) → splitComma cs = [cs] := by
  intro cs
  induction cs with
  | nil => intro _; rfl
  | cons c rest ih =>
    intro h
    cases rest with
    | nil => rfl
    | cons d rest' =>
      have hcd : ¬ (c = ',' ∧ d = ' ') := by
        rintro ⟨rfl, rfl⟩
        exact h ⟨[], rest', rfl⟩
      have hrest : ¬ ([',', ' '] <:+: d :: rest') := fun hin => h (sep_infix_cons c _ hin)
      simp only [splitComma]
      rw [if_neg hcd, ih hrest]

/-- Splitting a separator-free group followed by the separator peels off
exactly that group. -/
theorem splitComma_append_sep :
    ∀ g t : List Char, ¬ ([',', ' '] <:+: g) →
    splitComma (g ++ ',' :: ' ' :: t) = g :: splitComma t := by
  intro g
  induction g with
  | nil =>
    intro t _
    simp [splitComma]
  | cons c g' ih =>
    intro t h
    cases g' with
    | nil =>
      simp [splitComma]
    | cons d g'' =>
      have hcd : ¬ (c = ',' ∧ d = ' ') := by
        rintro ⟨rfl, rfl⟩
        exact h ⟨[], g'', rfl⟩
      have hg' : ¬ ([',', ' '] <:+: d :: g'') := fun hin => h (sep_infix_cons c _ hin)
      have ihx := ih t hg'
      simp only [List.cons_append] at ihx ⊢
      simp only [splitComma]
      rw [if_neg hcd, ihx]

/-- Splitting the character-level join of separator-free groups recovers
the groups. -/
theorem charJoin_split :
    ∀ gd : List (List Char), gd ≠ [] → (∀ g ∈ gd, ¬ ([',', ' '] <:+: g)) →
    splitComma (charJoin gd) = gd := by
  intro gd
  induction gd with
  | nil => intro h _; exact absurd rfl h
  | cons g rest ih =>
    intro _ hall
    cases rest with
    | nil => exact splitComma_sepFree g (hall g (by simp))
    | cons g2 rest' =>
      rw [show charJoin (g :: g2 :: rest') = g ++ ',' :: ' ' :: charJoin (g2 :: rest') from rfl]
      rw [splitComma_append_sep g _ (hall g (by simp))]
      rw [ih (by simp) (fun x hx => hall x (by simp [hx]))]

/-- The characters of `joinComma` are the character-level join of the
symbols' characters. -/
theorem joinComma_data :
    ∀ l : List String, (joinComma l).data = charJoin (l.map String.data) := by
  intro l
  induction l with
  | nil => rfl
  | cons s rest ih =>
    cases rest with
    | nil => rfl
    | cons t rest' =>
      show ((s ++ ", ") ++ joinComma (t :: rest')).data
          = charJoin ((s :: t :: rest').map String.data)
      rw [string_data_append, string_data_append, ih,
        show (", " : String).data = [',', ' '] from rfl]
      simp only [List.map_cons]
      rw [show charJoin (s.data :: t.data :: List.map String.data rest')
          = s.data ++ ',' :: ' ' :: charJoin (t.data :: List.map String.data rest') from rfl]
      simp [List.append_assoc]

/-- A newline-free list is untouched by the newline cutoff. -/
theorem takeWhile_no_newline (cs : List Char) (h : ∀ c ∈ cs, c ≠ '\n') :
    cs.takeWhile (fun ch => ch != '\n') = cs := by
  induction cs with
  | nil => rfl
  | cons c rest ih =>
    have hc : (c != '\n') = true := by simpa [bne_iff_ne] using h c (by simp)
    simp [List.takeWhile_cons, hc, ih (fun x hx => h x (by simp [hx]))]

/-- The newline cutoff removes an appended note and keeps the newline-free
body. -/
theorem takeWhile_before_newline (cs t : List Char) (h : ∀ c ∈ cs, c ≠ '\n') :
    (cs ++ '\n' :: t).takeWhile (fun ch => ch != '\n') = cs := by
  induction cs with
  | nil => simp [List.takeWhile_cons]
  | cons c rest ih =>
    have hc : (c != '\n') = true := by simpa [bne_iff_ne] using h c (by simp)
    simp [List.takeWhile_cons, hc, ih (fun x hx => h x (by simp [hx]))]

/-- The join of newline-free groups is newline-free. -/
theorem charJoin_no_newline :
    ∀ gd : List (List Char), (∀ g ∈ gd, ∀ c ∈ g, c ≠ '\n') →
    ∀ c ∈ charJoin gd, c ≠ '\n' := by
  intro gd
  induction gd with
  | nil =>
    intro _ c hc
    simp [charJoin] at hc
  | cons g rest ih =>
    intro hall c hc
    cases rest with
    | nil => exact hall g (by simp) c hc
    | cons g2 rest' =>
      rw [show charJoin (g :: g2 :: rest') = g ++ ',' :: ' ' :: charJoin (g2 :: rest') from rfl] at hc
      rcases List.mem_append.mp hc with hmem | hmem
      · exact hall g (by simp) c hmem
      · rcases List.mem_cons.mp hmem with rfl | hmem2
        · decide
        · rcases List.mem_cons.mp hmem2 with rfl | hmem3
          · decide
          · exact ih (fun x hx => hall x (by simp [hx])) c hmem3

/-- The join of groups of non-empty symbols is non-empty when there is at
least one group. -/
theorem charJoin_ne_nil :
    ∀ gd : List (List Char), gd ≠ [] → (∀ g ∈ gd, g ≠ []) → charJoin gd ≠ [] := by
  intro gd
  cases gd with
  | nil => intro h _; exact absurd rfl h
  | cons g rest =>
    intro _ hall
    cases rest with
    | nil => exact hall g (by simp)
    | cons g2 rest' =>
      rw [show charJoin (g :: g2 :: rest') = g ++ ',' :: ' ' :: charJoin (g2 :: rest') from rfl]
      simp

/-- The symbol body of a rendered chunk: stripping the prefix and applying
the newline cutoff yields the character-level join of the group. -/
theorem chunk_body (pre : String) (g : List String)
    (hnl : ∀ s ∈ g, ('\n') ∉ s.data) :
    ((renderChunk pre g).data.drop pre.length).takeWhile (fun ch => ch != '\n')
      = charJoin (g.map String.data) := by
  have hdata : (renderChunk pre g).data = pre.data ++ charJoin (g.map String.data) := by
    show (pre ++ joinComma g).data = _
    rw [string_data_append, joinComma_data]
  rw [hdata, string_length_data, List.drop_left]
  refine takeWhile_no_newline _ (charJoin_no_newline _ ?_)
  intro gd hgd c hc
  obtain ⟨s, hsmem, rfl⟩ := List.mem_map.mp hgd
  intro heq
  exact hnl s hsmem (heq ▸ hc)

/-- The symbol body of a rendered chunk with the overflow note appended:
the newline cutoff discards the note. -/
theorem chunk_body_note (pre : String) (g : List String) (note : String)
    (hnl : ∀ s ∈ g, ('\n') ∉ s.data) :
    ((renderChunk pre g ++ "\n" ++ note).data.drop pre.length).takeWhile (fun ch => ch != '\n')
      = charJoin (g.map String.data) := by
  have hdata : (renderChunk pre g ++ "\n" ++ note).data
      = pre.data ++ (charJoin (g.map String.data) ++ '\n' :: note.data) := by
    rw [string_data_append, string_data_append]
    rw [show (renderChunk pre g).data = pre.data ++ charJoin (g.map String.data) from by
      show (pre ++ joinComma g).data = _
      rw [string_data_append, joinComma_data]]
    simp [List.append_assoc]
  rw [hdata, string_length_data, List.drop_left]
  refine takeWhile_before_newline _ _ (charJoin_no_newline _ ?_)
  intro gd hgd c hc
  obtain ⟨s, hsmem, rfl⟩ := List.mem_map.mp hgd
  intro heq
  exact hnl s hsmem (heq ▸ hc)

/-- Extraction of one rendered chunk: the skip-empty round-trip recovers
exactly the group's symbols (the bare-prefix chunk, whose group is empty,
contributes nothing). -/
theorem extract_piece (pre : String) (g : List String)
    (hs : ∀ s ∈ g, s.data ≠ [] ∧ ¬ ([',', ' '] <:+: s.data) ∧ ('\n') ∉ s.data) :
    (if (((renderChunk pre g).data.drop pre.length).takeWhile (fun ch => ch != '\n')).isEmpty
      then []
      else splitComma (((renderChunk pre g).data.drop pre.length).takeWhile (fun ch => ch != '\n')))
      = g.map String.data := by
  rw [chunk_body pre g (fun s hsm => (hs s hsm).2.2)]
  cases g with
  | nil => rfl
  | cons s rest =>
    have hne : charJoin ((s :: rest).map String.data) ≠ [] := by
      refine charJoin_ne_nil _ (by simp) ?_
      intro gd hgd
      obtain ⟨x, hx, rfl⟩ := List.mem_map.mp hgd
      exact (hs x hx).1
    rw [if_neg (by simpa using hne)]
    refine charJoin_split _ (by simp) ?_
    intro gd hgd
    obtain ⟨x, hx, rfl⟩ := List.mem_map.mp hgd
    exact (hs x hx).2.1

/-- Extraction of the last chunk with the overflow note appended. -/
theorem extract_piece_note (pre : String) (g : List String) (note : String)
    (hs : ∀ s ∈ g, s.data ≠ [] ∧ ¬ ([',', ' '] <:+: s.data) ∧ ('\n') ∉ s.data) :
    (if (((renderChunk pre g ++ "\n" ++ note).data.drop pre.length).takeWhile
          (fun ch => ch != '\n')).isEmpty
      then []
      else splitComma (((renderChunk pre g ++ "\n" ++ note).data.drop pre.length).takeWhile
          (fun ch => ch != '\n')))
      = g.map String.data := by
  rw [chunk_body_note pre g note (fun s hsm => (hs s hsm).2.2)]
  cases g with
  | nil => rfl
  | cons s rest =>
    have hne : charJoin ((s :: rest).map String.data) ≠ [] := by
      refine charJoin_ne_nil _ (by simp) ?_
      intro gd hgd
      obtain ⟨x, hx, rfl⟩ := List.mem_map.mp hgd
      exact (hs x hx).1
    rw [if_neg (by simpa using hne)]
    refine charJoin_split _ (by simp) ?_
    intro gd hgd
    obtain ⟨x, hx, rfl⟩ := List.mem_map.mp hgd
    exact (hs x hx).2.1

/-- Extraction of a rendered group list recovers the concatenation of the
groups. -/
theorem extractNE_groups (pre : String) :
    ∀ gs : List (List String),
    (∀ g ∈ gs, ∀ s ∈ g, s.data ≠ [] ∧ ¬ ([',', ' '] <:+: s.data) ∧ ('\n') ∉ s.data) →
    extractSymbolsNE pre (gs.map (renderChunk pre)) = gs.flatten.map String.data := by
  intro gs
  induction gs with
  | nil => intro _; rfl
  | cons g rest ih =>
    intro hall
    simp only [extractSymbolsNE, List.map_cons, List.flatMap_cons] at ih ⊢
    rw [extract_piece pre g (hall g (by simp))]
    rw [ih (fun x hx => hall x (by simp [hx]))]
    simp [List.flatten_cons, List.map_append]

/-! ## Claim C6 — round-trip (corrected) -/

/-- C6 (amended): for non-empty symbols free of the separator and of
newlines, stripping each chunk's prefix, cutting off the appended overflow
note at its newline, splitting each chunk on `", "` and skipping chunks
with empty symbol content (the packer can emit a bare-prefix chunk holding
no symbols) reproduces exactly the placed symbols — the round trip is
lossless: the extraction equals `placed_symbols`, character for character
and in order, and the placed symbols are an initial segment of the input
(the first processedCount symbols, with processedCount the number of
symbols actually placed into a chunk). -/
theorem C6_roundtrip_amended (MFC MEF : Nat) (symbols : List String) (pre : String)
    (hgood : ∀ s ∈ symbols,
      s.data ≠ [] ∧ ¬ ([',', ' '] <:+: s.data) ∧ ('\n') ∉ s.data) :
    extractSymbolsNE pre (chunk_symbols_into_fields MFC MEF symbols pre)
        = (placed_symbols MFC MEF symbols pre).map String.data ∧
    ∃ k ≤ symbols.length, placed_symbols MFC MEF symbols pre = symbols.take k := by
  obtain ⟨gsAll, hgok, hmem, hpre, hplaced, hout⟩ := chunk_fields_cases MFC MEF symbols pre
  have hgall : ∀ g ∈ gsAll, ∀ s ∈ g,
      s.data ≠ [] ∧ ¬ ([',', ' '] <:+: s.data) ∧ ('\n') ∉ s.data :=
    fun g hg s hs => hgood s (hmem g hg s hs)
  constructor
  · rcases hout with hout | ⟨gsInit, gLast, k, hdec, hk, hout⟩
    · rw [hout, extractNE_groups pre gsAll hgall, hplaced]
    · rw [hout]
      have h1 : extractSymbolsNE pre (gsInit.map (renderChunk pre))
          = gsInit.flatten.map String.data := by
        refine extractNE_groups pre gsInit ?_
        intro g hg
        exact hgall g (by rw [hdec]; exact List.mem_append.mpr (Or.inl hg))
      have h2 : extractSymbolsNE pre
            [renderChunk pre gLast ++ "\n" ++ ("...and " ++ toString k ++ " more")]
          = gLast.map String.data := by
        simp only [extractSymbolsNE, List.flatMap_cons, List.flatMap_nil, List.append_nil]
        exact extract_piece_note pre gLast ("...and " ++ toString k ++ " more")
          (hgall gLast (by rw [hdec]; exact List.mem_append.mpr (Or.inr (by simp))))
      have hsplit : extractSymbolsNE pre
            (gsInit.map (renderChunk pre)
              ++ [renderChunk pre gLast ++ "\n" ++ ("...and " ++ toString k ++ " more")])
          = gsAll.flatten.map String.data := by
        simp only [extractSymbolsNE, List.flatMap_append] at h1 h2 ⊢
        rw [h1, h2, hdec]
        simp [List.flatten_append, List.map_append]
      rw [hsplit, hplaced]
  · refine ⟨gsAll.flatten.length, hpre.length_le, ?_⟩
    rw [← hplaced]
    exact List.prefix_iff_eq_take.mp hpre

/-- C6 witness: concrete run with two symbols packed into two chunks; the
extraction equals the placed symbols exactly and they are an initial
segment of the input. -/
theorem C6_roundtrip_amended_witness :
    (extractSymbolsNE ("X ") (chunk_symbols_into_fields 6 20 ["AAA", "BBB"] ("X "))
        = (placed_symbols 6 20 ["AAA", "BBB"] ("X ")).map String.data) ∧
    ∃ k ≤ (["AAA", "BBB"] : List String).length,
      placed_symbols 6 20 ["AAA", "BBB"] ("X ") = (["AAA", "BBB"] : List String).take k :=
  C6_roundtrip_amended 6 20 ["AAA", "BBB"] ("X ") (by decide)

/-! ## Claim C9 — concrete scenario (confirmed) -/

/-- C9: with cap 6, prefix `"X "` and any chunk budget of at least 3, the
input `["AAA", "BBB", "CCC"]` packs into exactly the three chunks
`"X AAA"`, `"X BBB"`, `"X CCC"`, with no overflow note. -/
theorem C9_scenario (MEF : Nat) (h : 3 ≤ MEF) :
    chunk_symbols_into_fields 6 MEF ["AAA", "BBB", "CCC"] ("X ")
      = ["X AAA", "X BBB", "X CCC"] := by
  have h4 : chunk_loop 6 4 ("X ") ["AAA", "BBB", "CCC"] [] [] ("X ".length) 0
      = (["X AAA", "X BBB"], ["CCC"], 3) := by decide
  have hrun : chunk_loop 6 MEF ("X ") ["AAA", "BBB", "CCC"] [] [] ("X ".length) 0
      = (["X AAA", "X BBB"], ["CCC"], 3) :=
    chunk_loop_irrel 6 4 MEF ("X ") _ _ _ _ _ _ _ _ h4 (by decide) (by simp; omega)
  simp only [chunk_symbols_into_fields]
  rw [hrun]
  dsimp only
  rw [if_neg (by decide : ¬ 0 < (["AAA", "BBB", "CCC"] : List String).length - 3)]
  rw [if_pos ⟨by decide, by simp; omega⟩]
  decide

/-- C9 witness: the scenario at the production chunk budget. -/
theorem C9_scenario_witness :
    3 ≤ 20 ∧ chunk_symbols_into_fields 6 20 ["AAA", "BBB", "CCC"] ("X ")
      = ["X AAA", "X BBB", "X CCC"] :=
  ⟨by decide, C9_scenario 20 (by decide)⟩

/-! ## Claim C10 — oversized first symbol (corrected) -/

/-- Appending note text to the last chunk of a concatenation. -/
theorem post_note_concat (l : List String) (x y z : String) :
    (l ++ [x]).dropLast ++ [(l ++ [x]).getLastD ("") ++ y ++ z] = l ++ [x ++ y ++ z] := by
  rw [List.dropLast_concat, show (l ++ [x]).getLastD ("") = x from by simp]

/-- The post-loop steps (final flush, overflow note) keep the first chunk
intact and only ever extend the text of later chunks, so a loop result
whose chunks start `pre :: b :: _` yields an output starting with `pre`
whose second chunk is `b` possibly extended on the right. -/
theorem shape_after_post (MFC MEF : Nat) (symbols : List String) (pre : String)
    (f' c' : List String) (p' : Nat) (b : String) (t : List String)
    (hrun : chunk_loop MFC MEF pre symbols [] [] pre.length 0 = (f', c', p'))
    (hf' : f' = pre :: b :: t) :
    ∃ c tail, chunk_symbols_into_fields MFC MEF symbols pre = pre :: c :: tail ∧
      (c = b ∨ ∃ u : String, c = b ++ u) := by
  simp only [chunk_symbols_into_fields]
  rw [hrun]
  dsimp only
  subst hf'
  by_cases hflush : c' ≠ [] ∧ (pre :: b :: t).length < MEF
  · rw [if_pos hflush]
    by_cases hrem : 0 < symbols.length - p'
    · rw [if_pos hrem]
      by_cases hfits : ((pre :: b :: t) ++ [renderChunk pre c']).length < MEF
      · rw [if_pos hfits]
        exact ⟨b, t ++ [renderChunk pre c']
            ++ ["...and " ++ toString (symbols.length - p') ++ " more"],
          by simp, Or.inl rfl⟩
      · rw [if_neg hfits, post_note_concat]
        exact ⟨b, t ++ [renderChunk pre c' ++ "\n"
            ++ ("...and " ++ toString (symbols.length - p') ++ " more")],
          by simp, Or.inl rfl⟩
    · rw [if_neg hrem]
      exact ⟨b, t ++ [renderChunk pre c'], by simp, Or.inl rfl⟩
  · rw [if_neg hflush]
    by_cases hrem : 0 < symbols.length - p'
    · rw [if_pos hrem]
      by_cases hfits : (pre :: b :: t : List String).length < MEF
      · rw [if_pos hfits]
        exact ⟨b, t ++ ["...and " ++ toString (symbols.length - p') ++ " more"],
          by simp, Or.inl rfl⟩
      · rw [if_neg hfits]
        cases t with
        | nil =>
          refine ⟨b ++ "\n" ++ ("...and " ++ toString (symbols.length - p') ++ " more"),
            [], by simp, Or.inr ⟨"\n" ++ ("...and " ++ toString (symbols.length - p') ++ " more"),
            String.append_assoc b ("\n") _⟩⟩
        | cons u t3 =>
          exact ⟨b, (u :: t3).dropLast ++ [(pre :: b :: u :: t3).getLastD ("") ++ "\n"
              ++ ("...and " ++ toString (symbols.length - p') ++ " more")],
            by simp [List.dropLast_cons₂], Or.inl rfl⟩
    · rw [if_neg hrem]
      exact ⟨b, t, rfl, Or.inl rfl⟩

/-- C10 (amended): when the first symbol is oversized and at least two
chunk slots exist (`maxChunks ≥ 2`, forced by the counterexample at
`maxChunks = 1`, where the symbol is dropped), the first output chunk is
the bare prefix and the second starts with the prefix followed by the
oversized symbol. -/
theorem C10_oversized_first_amended (MFC MEF : Nat) (pre s : String) (rest : List String)
    (h1 : MFC < pre.length + s.length) (h2 : 2 ≤ MEF) :
    ∃ c tail, chunk_symbols_into_fields MFC MEF (s :: rest) pre = pre :: c :: tail ∧
      (pre ++ s).data <+: c.data := by
  have hc1 : ¬ (pre.length + (tokenFor [] s).length ≤ MFC) := by
    rw [show tokenFor [] s = s from rfl]
    omega
  have hbreak1 : ¬ (MEF ≤ ([] ++ [renderChunk pre []] : List String).length) := by
    simp only [List.nil_append, List.length_cons, List.length_nil]
    omega
  rcases hrun : chunk_loop MFC MEF pre (s :: rest) [] [] pre.length 0 with ⟨f', c', p'⟩
  have hrun2 := hrun
  simp only [chunk_loop] at hrun2
  rw [if_neg hc1, if_neg hbreak1] at hrun2
  simp only [List.nil_append, renderChunk_nil, Nat.zero_add] at hrun2
  cases rest with
  | nil =>
    simp only [chunk_loop] at hrun2
    injection hrun2 with e1 e23
    injection e23 with e2 e3
    subst e1; subst e2; subst e3
    simp only [chunk_symbols_into_fields]
    rw [hrun]
    dsimp only
    rw [if_neg (by simp : ¬ 0 < ([s] : List String).length - 1)]
    rw [if_pos (⟨by simp, by simp only [List.length_cons, List.length_nil]; omega⟩ :
      ([s] : List String) ≠ [] ∧ ([pre] : List String).length < MEF)]
    refine ⟨renderChunk pre [s], [], by simp, ?_⟩
    rw [renderChunk_singleton]
  | cons r rs =>
    simp only [chunk_loop] at hrun2
    rw [if_neg (by have : 0 ≤ (tokenFor [s] r).length := Nat.zero_le _; omega)] at hrun2
    have hshape : ∃ t2, f' = pre :: renderChunk pre [s] :: t2 := by
      by_cases hM : MEF ≤ ([pre] ++ [renderChunk pre [s]] : List String).length
      · rw [if_pos hM] at hrun2
        injection hrun2 with e1 e23
        exact ⟨[], by rw [← e1]; rfl⟩
      · rw [if_neg hM] at hrun2
        obtain ⟨t, ht⟩ := chunk_loop_grow MFC MEF pre rs ([pre] ++ [renderChunk pre [s]]) [r]
          (pre.length + r.length) 2
        rw [hrun2] at ht
        exact ⟨t, by rw [show f' = (f', c', p').1 from rfl, ht]; rfl⟩
    obtain ⟨t2, ht2⟩ := hshape
    obtain ⟨c, tail, heq, hc⟩ :=
      shape_after_post MFC MEF (s :: r :: rs) pre f' c' p' (renderChunk pre [s]) t2 hrun ht2
    refine ⟨c, tail, heq, ?_⟩
    rcases hc with rfl | ⟨u, rfl⟩
    · rw [renderChunk_singleton]
    · rw [string_data_append, renderChunk_singleton]
      exact ⟨u.data, rfl⟩

/-- C10 witness: concrete oversized first symbol with room for two chunks. -/
theorem C10_oversized_first_amended_witness :
    (3 < ("X " : String).length + ("aaaa" : String).length) ∧ (2 ≤ 5) ∧
    ∃ c tail, chunk_symbols_into_fields 3 5 ["aaaa"] ("X ") = "X " :: c :: tail ∧
      ("X " ++ "aaaa").data <+: c.data :=
  ⟨by decide, by decide, C10_oversized_first_amended 3 5 ("X ") ("aaaa") [] (by decide) (by decide)⟩
